import Mathlib

/-!
Verification of the list-format detector and title generator of
`bot/services/parser.py` (class TextParser).

The Python code is shallowly embedded over `List Char`:

* `pySpace` models Python whitespace (the ASCII whitespace characters
  recognised both by `str.strip()` and by the regex class `\s`).
* `stripL` models `str.strip()`.
* `findAll m s` models `re.findall(pattern, s, re.MULTILINE)` for the
  line-anchored patterns of the source, where `m` is the deterministic
  matcher of one pattern at one position: it returns the captured group(s)
  and the number of characters the whole match consumes.  Scanning is
  left-to-right and non-overlapping, and a match may only start at the
  beginning of the string or right after a newline (the `^` anchor in
  multiline mode).  All of the source's patterns end in
  `\s*(.+?)(?:\n|$)`, whose deterministic semantics (greedy `\s*`, which
  may cross newlines, lazy `.+?`, with backtracking of `\s*` when the
  whitespace run reaches the end of the string) is implemented by
  `afterWs`.
* `commaParts` transcribes the character loop of the comma branch
  (depth-aware splitting, depth may go negative).
* `splitOnChar` models `str.split(c)`.
* `sepOccurs`/`splitSep` model `re.search`/`re.split` for the patterns
  `\s+X\s+` used by the single-line fallback.
* `parseTextL`/`parse_text` model `TextParser.parse_text`, and
  `generate_title` models `TextParser.generate_title`.
-/

namespace BMS

/-- ASCII whitespace as recognised by Python's `str.strip` and the regex
class `\s`. -/
def pySpace (c : Char) : Bool :=
  c == ' ' || c == '\t' || c == '\n' || c == '\r' || c == '\x0b' || c == '\x0c'

/-- Python `str.strip()`: drop whitespace from both ends. -/
def stripL (s : List Char) : List Char :=
  ((s.dropWhile pySpace).reverse.dropWhile pySpace).reverse

/-- Index of the last character of `ws` that is not a newline, if any.
Used to model the backtracking of a greedy `\s*` in front of `(.+?)`. -/
def backIdx : List Char → Option Nat
  | [] => none
  | c :: rest =>
    match backIdx rest with
    | some i => some (i + 1)
    | none => if c ≠ '\n' then some 0 else none

/-- Deterministic semantics of the regex tail `\s*(.+?)(?:\n|$)` applied to
the remaining input `s₂` (in multiline mode, `.` not matching newlines):
returns the capture of `(.+?)` and the number of consumed characters.
The greedy `\s*` takes the maximal whitespace run (possibly across
newlines); if that run reaches the end of the string the engine backtracks
to the last non-newline character of the run. -/
def afterWs (s₂ : List Char) : Option (List Char × Nat) :=
  let ws := s₂.takeWhile pySpace
  match s₂.dropWhile pySpace with
  | c :: s₃' =>
    let cap := (c :: s₃').takeWhile (fun x => x ≠ '\n')
    some (cap, ws.length + cap.length +
      (if ((c :: s₃').dropWhile (fun x => x ≠ '\n')).isEmpty then 0 else 1))
  | [] =>
    match backIdx ws with
    | some q =>
      let cap := (ws.drop q).takeWhile (fun x => x ≠ '\n')
      some (cap, q + cap.length +
        (if ((ws.drop q).dropWhile (fun x => x ≠ '\n')).isEmpty then 0 else 1))
    | none => none

/-- One-position matcher for `^\d+\.\s*(.+?)(?:\n|$)`. -/
def matchNumbered (s : List Char) : Option (List Char × Nat) :=
  let ds := s.takeWhile Char.isDigit
  if ds.isEmpty then none
  else
    match s.dropWhile Char.isDigit with
    | c :: s₂ =>
      if c = '.' then (afterWs s₂).map (fun p => (p.1, ds.length + 1 + p.2)) else none
    | [] => none

/-- One-position matcher for `^[•·]\s*(.+?)(?:\n|$)`. -/
def matchBulletDot (s : List Char) : Option (List Char × Nat) :=
  match s with
  | c :: s₂ =>
    if c = '•' ∨ c = '·' then (afterWs s₂).map (fun p => (p.1, 1 + p.2)) else none
  | [] => none

/-- One-position matcher for `^[-*]\s*(.+?)(?:\n|$)`. -/
def matchBulletDash (s : List Char) : Option (List Char × Nat) :=
  match s with
  | c :: s₂ =>
    if c = '-' ∨ c = '*' then (afterWs s₂).map (fun p => (p.1, 1 + p.2)) else none
  | [] => none

/-- One-position matcher for `^-\s*\[(.*?)\]\s*(.+?)(?:\n|$)` (the markdown
checkbox pattern).  Returns both captures: the checkbox state (group 1)
and the content (group 2). -/
def matchCheckbox (s : List Char) : Option ((List Char × List Char) × Nat) :=
  match s with
  | c :: s₁ =>
    if c = '-' then
      let w1 := s₁.takeWhile pySpace
      match s₁.dropWhile pySpace with
      | c₂ :: s₂ =>
        if c₂ = '[' then
          let inner := s₂.takeWhile (fun x => x ≠ ']' ∧ x ≠ '\n')
          match s₂.dropWhile (fun x => x ≠ ']' ∧ x ≠ '\n') with
          | c₃ :: s₃ =>
            if c₃ = ']' then
              (afterWs s₃).map
                (fun p => ((inner, p.1), 1 + w1.length + 1 + inner.length + 1 + p.2))
            else none
          | [] => none
        else none
      | [] => none
    else none
  | [] => none

/-- Fueled scanning loop of `re.findall` in multiline mode for a
line-anchored pattern: a match may only start at position 0 or right after
a newline; after a match the scan resumes at the end of the match; all the
source's patterns only produce non-empty matches (the `max k 1` guard is a
defensive fuel bound, never reached by the matchers above). -/
def findAllGo (m : List Char → Option (α × Nat)) : Nat → Bool → List Char → List α
  | 0, _, _ => []
  | _ + 1, _, [] => []
  | fuel + 1, atStart, c :: rest =>
    match (if atStart then m (c :: rest) else none) with
    | some (a, k) =>
      let k' := max k 1
      a :: findAllGo m fuel (((c :: rest).getD (k' - 1) ' ') == '\n') (List.drop k' (c :: rest))
    | none => findAllGo m fuel (c == '\n') rest

/-- Model of `re.findall(pattern, s, re.MULTILINE)` for a line-anchored
pattern with one-position matcher `m`. -/
def findAll (m : List Char → Option (α × Nat)) (s : List Char) : List α :=
  findAllGo m s.length true s

/-- The normalisation applied to every detector's raw matches:
`[task.strip() for task in matches if task.strip()]`. -/
def normalize (l : List (List Char)) : List (List Char) :=
  (l.map stripL).filter (fun e => !e.isEmpty)

/-- The character loop of the comma branch: split on commas at bracket
nesting depth 0.  `current` is the accumulating segment and `depth` the
(possibly negative) nesting depth.  At each depth-0 comma the stripped
current segment is appended (even if empty); at the end the stripped
remainder is appended only if non-empty. -/
def commaParts : List Char → List Char → Int → List (List Char)
  | [], current, _ => if (stripL current).isEmpty then [] else [stripL current]
  | c :: rest, current, depth =>
    if c = '(' ∨ c = '[' ∨ c = '{' then commaParts rest (current ++ [c]) (depth + 1)
    else if c = ')' ∨ c = ']' ∨ c = '}' then commaParts rest (current ++ [c]) (depth - 1)
    else if c = ',' ∧ depth = 0 then stripL current :: commaParts rest [] 0
    else commaParts rest (current ++ [c]) depth

/-- Python `str.split(sep)` for a one-character separator. -/
def splitOnChar (sep : Char) : List Char → List (List Char)
  | [] => [[]]
  | c :: rest =>
    if c = sep then [] :: splitOnChar sep rest
    else
      match splitOnChar sep rest with
      | r :: rs => (c :: r) :: rs
      | [] => [[c]]

/-- Model of `re.search(r'\s+X\s+', s)` for a non-whitespace character `X`:
is there a position with a whitespace run followed by `X` followed by
whitespace? -/
def sepOccurs (x : Char) : List Char → Bool
  | [] => false
  | c :: rest =>
    (pySpace c &&
      (match rest.dropWhile pySpace with
       | y :: z :: _ => y == x && pySpace z
       | _ => false)) || sepOccurs x rest

/-- Fueled scanning loop of `re.split(r'\s+X\s+', s)`: leftmost
non-overlapping matches, both whitespace runs greedy.  A match can only
start at a whitespace character whose maximal run is directly followed by
`X` and then by at least one whitespace character. -/
def splitSepGo (x : Char) : Nat → List Char → List Char → List (List Char)
  | _, cur, [] => [cur]
  | 0, cur, s => [cur ++ s]
  | fuel + 1, cur, c :: rest =>
    if pySpace c then
      let w := rest.takeWhile pySpace
      let r := rest.dropWhile pySpace
      match r with
      | [] => [cur ++ c :: w]
      | y :: r2 =>
        if y = x then
          match r2 with
          | [] => [cur ++ c :: w ++ [y]]
          | z :: r3 =>
            if pySpace z then
              cur :: splitSepGo x fuel [] (r3.dropWhile pySpace)
            else
              splitSepGo x fuel (cur ++ c :: w ++ [y]) r2
        else splitSepGo x fuel (cur ++ c :: w) r
    else splitSepGo x fuel (cur ++ [c]) rest

/-- Model of `re.split(r'\s+X\s+', s)`. -/
def splitSep (x : Char) (s : List Char) : List (List Char) :=
  splitSepGo x s.length [] s

/-- The single-line fallback: try the three separator patterns in order
(`\s+\|\s+`, `\s+и\s+`, `\s+\+\s+`) and split by the first that occurs;
otherwise the single line stands. -/
def singleLineSplit (line : List Char) : List (List Char) :=
  if sepOccurs '|' line then normalize (splitSep '|' line)
  else if sepOccurs 'и' line then normalize (splitSep 'и' line)
  else if sepOccurs '+' line then normalize (splitSep '+' line)
  else [line]

/-- The tail of the detector chain after the comma branch: semicolon split,
then line split, then (for exactly one line) the single-line fallback. -/
def restChain (text : List Char) : List (List Char) :=
  if text.contains ';' then normalize (splitOnChar ';' text)
  else
    let lines := normalize (splitOnChar '\n' text)
    match lines with
    | [line] => singleLineSplit line
    | _ => lines

/-- Model of `TextParser.parse_text` over `List Char`.  Note that the checkbox
branch keeps the first capture — the checkbox state — because the source
unpacks `for task, _ in bullet_matches` (group 1 is the state). -/
def parseTextL (input : List Char) : List (List Char) :=
  let text := stripL input
  let numbered := findAll matchNumbered text
  if !numbered.isEmpty then normalize numbered
  else
    let b1 := findAll matchBulletDot text
    if !b1.isEmpty then normalize b1
    else
      let b2 := findAll matchBulletDash text
      if !b2.isEmpty then normalize b2
      else
        let b3 := findAll matchCheckbox text
        if !b3.isEmpty then normalize (b3.map Prod.fst)
        else if text.contains ',' then
          let parts := commaParts text [] 0
          if 1 < parts.length then parts.filter (fun e => !e.isEmpty)
          else restChain text
        else restChain text

/-- Model of `TextParser.parse_text` over `String`. -/
def parse_text (s : String) : List String :=
  (parseTextL s.data).map String.mk

/-- Model of `TextParser.generate_title`, transcribing the source's chain
`if not tasks / len == 1 / len <= 3 / else` (the f-strings become explicit
concatenations; `', '.join(tasks[:2])` becomes an intercalation of
`tasks.take 2`). -/
def generate_title (tasks : List String) : String :=
  if tasks.isEmpty then "Мой список"
  else if tasks.length = 1 then tasks.headD ""
  else if tasks.length ≤ 3 then
    "Список: " ++ String.intercalate ", " (tasks.take 2) ++ "..."
  else "Список из " ++ toString tasks.length ++ " пунктов"

/-- Variant of `parseTextL` with the markdown-checkbox sub-pattern removed
from the bulleted-list loop (used to state that the checkbox sub-pattern is
dead code). -/
def parseTextLNoCheckbox (input : List Char) : List (List Char) :=
  let text := stripL input
  let numbered := findAll matchNumbered text
  if !numbered.isEmpty then normalize numbered
  else
    let b1 := findAll matchBulletDot text
    if !b1.isEmpty then normalize b1
    else
      let b2 := findAll matchBulletDash text
      if !b2.isEmpty then normalize b2
      else if text.contains ',' then
        let parts := commaParts text [] 0
        if 1 < parts.length then parts.filter (fun e => !e.isEmpty)
        else restChain text
      else restChain text

/-- Variant of `parse_text` with the markdown-checkbox sub-pattern removed. -/
def parse_text_noCheckbox (s : String) : List String :=
  (parseTextLNoCheckbox s.data).map String.mk

/-- The elements of the first list occur in the second list in order, as
pairwise disjoint contiguous segments, from left to right.  This is the
formal rendering of "relative order matches source order, never
re-sorted". -/
def chainEmbeds : List (List Char) → List Char → Prop
  | [], _ => True
  | e :: es, s => ∃ p q, s = p ++ e ++ q ∧ chainEmbeds es q

/-- Python `"\n".join` over `List Char` tasks. -/
def joinL : List (List Char) → List Char
  | [] => []
  | [e] => e
  | e :: es => e ++ '\n' :: joinL es

/-- Does a task begin with one or more digits followed by a dot (so that
the numbered-list pattern could match at its start)? -/
def numberedHead (s : List Char) : Bool :=
  !(s.takeWhile Char.isDigit).isEmpty && ((s.dropWhile Char.isDigit).headD ' ' == '.')

/-- Does a task begin with one of the bullet characters? -/
def bulletHead (s : List Char) : Bool :=
  s.headD ' ' == '•' || s.headD ' ' == '·' || s.headD ' ' == '-' || s.headD ' ' == '*'

/-- Side conditions under which the newline-join of a task list reparses
to itself: no task contains a newline, comma or semicolon, no task starts
like a numbered or bulleted item, and a single task contains none of the
three inline separators. -/
def reparseSafe (ts : List (List Char)) : Prop :=
  (∀ t ∈ ts, '\n' ∉ t ∧ ',' ∉ t ∧ ';' ∉ t ∧
    numberedHead t = false ∧ bulletHead t = false) ∧
  (ts.length = 1 → ∀ t ∈ ts,
    sepOccurs '|' t = false ∧ sepOccurs 'и' t = false ∧ sepOccurs '+' t = false)

instance reparseSafeDecidable (ts : List (List Char)) : Decidable (reparseSafe ts) := by
  unfold reparseSafe
  infer_instance

/-- Claim C2 (code bug): the spec says the markdown-checkbox input
yields the contents with the checkbox state discarded, but the code
returns the raw bullet captures: the second bulleted sub-pattern
(lines starting with a dash or asterisk) matches every checkbox line and
is tried first, so the result keeps the whole bracketed prefix; moreover
even the checkbox branch itself, if it were reached, keeps the first
capture (the checkbox state) because of the unpacking of the match
tuples, as the final conjunct shows. -/
theorem C2_checkbox_eval :
    parse_text "- [x] Buy milk\n- [ ] Buy bread" = ["[x] Buy milk", "[ ] Buy bread"] ∧
    parse_text "- [x] Buy milk\n- [ ] Buy bread" ≠ ["Buy milk", "Buy bread"] ∧
    normalize ((findAll matchCheckbox ("- [x] Buy milk\n- [ ] Buy bread").data).map
      Prod.fst) = [['x']] := by
  decide

/-- Claim C3 counterexample: on the input "a,," the depth-aware split
yields exactly one non-empty segment, yet the comma branch does not
decline: it returns the one-element list ["a"] (the guard of the source
counts empty segments produced between consecutive depth-0 commas). -/
theorem C3_comma_counterexample :
    parse_text "a,," = ["a"] ∧
    ((commaParts ("a,,".data) [] 0).filter (fun e => !e.isEmpty)).length = 1 := by
  decide

/-- Claim C3 (amended): the comma branch returns a result exactly when the
depth-aware split yields more than one segment, where segments are counted
including the empty segments appended at consecutive depth-0 commas; with
one or zero segments it declines and the chain proceeds to the
semicolon/line/single-line detectors. -/
theorem C3_comma_amended (t : List Char)
    (h1 : findAll matchNumbered (stripL t) = [])
    (h2 : findAll matchBulletDot (stripL t) = [])
    (h3 : findAll matchBulletDash (stripL t) = [])
    (h4 : findAll matchCheckbox (stripL t) = [])
    (hc : (stripL t).contains ',' = true) :
    parseTextL t = (if 1 < (commaParts (stripL t) [] 0).length
      then (commaParts (stripL t) [] 0).filter (fun e => !e.isEmpty)
      else restChain (stripL t)) := by
  simp only [parseTextL, h1, h2, h3, h4, hc, List.isEmpty_nil, Bool.not_true,
    Bool.false_eq_true, if_false, if_true]

/-- Witness for the amended claim C3 at the concrete input "x, y". -/
theorem C3_comma_amended_witness :
    parseTextL ("x, y".data) = (if 1 < (commaParts (stripL ("x, y".data)) [] 0).length
      then (commaParts (stripL ("x, y".data)) [] 0).filter (fun e => !e.isEmpty)
      else restChain (stripL ("x, y".data))) :=
  C3_comma_amended ("x, y".data) (by decide) (by decide) (by decide) (by decide) (by decide)

/-- Claim C4 counterexample: re-running parse_text on the newline-join of
its own output does not always reproduce the output.  On "A\nB, C" the
comma branch produces a task containing a newline, and the rejoined text
is split by the line detector into three tasks. -/
theorem C4_idem_counterexample :
    parse_text "A\nB, C" = ["A\nB", "C"] ∧
    parse_text (String.intercalate "\n" (parse_text "A\nB, C")) = ["A", "B", "C"] ∧
    parse_text (String.intercalate "\n" (parse_text "A\nB, C")) ≠ parse_text "A\nB, C" := by
  decide

/-- Claim C5: generate_title on the empty list returns the fixed fallback
title; on a one-element list the task itself; on two or three tasks the
"Список: " prefix, the first two tasks joined by ", ", and the ellipsis
marker (the third task never appears in the result); on four or more tasks
"Список из N пунктов" with N the exact count. -/
theorem C5_generate_title :
    generate_title [] = "Мой список" ∧
    (∀ a : String, generate_title [a] = a) ∧
    (∀ a b : String, generate_title [a, b] =
      "Список: " ++ String.intercalate ", " [a, b] ++ "...") ∧
    (∀ a b c : String, generate_title [a, b, c] =
      "Список: " ++ String.intercalate ", " [a, b] ++ "...") ∧
    (∀ ts : List String, 4 ≤ ts.length →
      generate_title ts = "Список из " ++ toString ts.length ++ " пунктов") := by
  refine ⟨by decide, fun a => rfl, fun a b => rfl, fun a b c => rfl, fun ts h => ?_⟩
  have h0 : ts.isEmpty = false := by
    cases ts with
    | nil => simp at h
    | cons a l => rfl
  have h1 : ¬ ts.length = 1 := by omega
  have h2 : ¬ ts.length ≤ 3 := by omega
  simp only [generate_title, h0, Bool.false_eq_true, if_false, h1, h2]

/-- Claim C6: the comma branch splits only on commas at bracket nesting
depth zero: the two reference inputs evaluate as specified, a comma seen
at non-zero depth is copied verbatim into the current segment, and a comma
at depth zero ends the current segment. -/
theorem C6_depth_aware_comma :
    parse_text "Milk, Bread, Cheese" = ["Milk", "Bread", "Cheese"] ∧
    parse_text "Call (John, Jane), Buy milk" = ["Call (John, Jane)", "Buy milk"] ∧
    (∀ rest cur (d : Int), d ≠ 0 →
      commaParts (',' :: rest) cur d = commaParts rest (cur ++ [',']) d) ∧
    (∀ rest cur, commaParts (',' :: rest) cur 0 = stripL cur :: commaParts rest [] 0) := by
  refine ⟨by decide, by decide, fun rest cur d hd => ?_, fun rest cur => ?_⟩
  · simp [commaParts, hd]
  · simp [commaParts]

/-- Witness for claim C6's universally quantified conjunct at depth 1. -/
theorem C6_depth_aware_comma_witness :
    commaParts [','] ['x'] 1 = commaParts [] (['x'] ++ [',']) 1 :=
  C6_depth_aware_comma.2.2.1 [] ['x'] 1 (by decide)

/-- Claim C7: when the earlier detectors decline and line-splitting yields
exactly one line, the three inline separator patterns are tried in the
fixed order bar, "и", plus, and the first one that occurs in the line
determines the split; if none occurs the single line stands. -/
theorem C7_single_line :
    parse_text "Milk | Bread | Cheese" = ["Milk", "Bread", "Cheese"] ∧
    (∀ line, sepOccurs '|' line = true →
      singleLineSplit line = normalize (splitSep '|' line)) ∧
    (∀ line, sepOccurs '|' line = false → sepOccurs 'и' line = true →
      singleLineSplit line = normalize (splitSep 'и' line)) ∧
    (∀ line, sepOccurs '|' line = false → sepOccurs 'и' line = false →
      sepOccurs '+' line = true →
      singleLineSplit line = normalize (splitSep '+' line)) ∧
    (∀ line, sepOccurs '|' line = false → sepOccurs 'и' line = false →
      sepOccurs '+' line = false → singleLineSplit line = [line]) := by
  refine ⟨by decide, fun line h1 => ?_, fun line h1 h2 => ?_,
    fun line h1 h2 h3 => ?_, fun line h1 h2 h3 => ?_⟩
  · simp [singleLineSplit, h1]
  · simp [singleLineSplit, h1, h2]
  · simp [singleLineSplit, h1, h2, h3]
  · simp [singleLineSplit, h1, h2, h3]

/-- Witness for claim C7's conditional conjuncts at a concrete line. -/
theorem C7_single_line_witness :
    singleLineSplit ("Milk | Bread | Cheese".data) =
      normalize (splitSep '|' ("Milk | Bread | Cheese".data)) :=
  C7_single_line.2.1 ("Milk | Bread | Cheese".data) (by decide)

/-- Claim C8: parse_text and generate_title are total functions of their
input (the embedding is a total Lean function, so every code path
terminates in a list of strings and no exception is possible), including
on the empty string, whitespace-only strings and strings with unbalanced
brackets, where the nesting depth of the comma splitter goes negative
without error. -/
theorem C8_totality :
    (∀ t : String, ∃ l : List String, parse_text t = l) ∧
    (∀ ts : List String, ∃ s : String, generate_title ts = s) ∧
    parse_text "" = [] ∧
    parse_text " \t\n " = [] ∧
    parse_text ")a, b(" = [")a, b("] ∧
    parse_text "((x, y" = ["((x, y"] ∧
    generate_title [] = "Мой список" :=
  ⟨fun t => ⟨parse_text t, rfl⟩, fun ts => ⟨generate_title ts, rfl⟩,
    by decide, by decide, by decide, by decide, by decide⟩

/-- Witness for claim C5's conditional conjunct at a four-element list. -/
theorem C5_generate_title_witness :
    generate_title ["A", "B", "C", "D"] =
      "Список из " ++ toString (["A", "B", "C", "D"] : List String).length ++ " пунктов" :=
  C5_generate_title.2.2.2.2 ["A", "B", "C", "D"] (by decide)

/-- Stripping absorbs an all-whitespace prefix. -/
theorem stripL_append_left {a x : List Char} (ha : ∀ c ∈ a, pySpace c = true) :
    stripL (a ++ x) = stripL x := by
  unfold stripL
  rw [List.dropWhile_append_of_pos ha]

/-- Stripping absorbs an all-whitespace suffix. -/
theorem stripL_append_right {x b : List Char} (hb : ∀ c ∈ b, pySpace c = true) :
    stripL (x ++ b) = stripL x := by
  unfold stripL
  rw [List.dropWhile_append]
  by_cases h : (x.dropWhile pySpace).isEmpty
  · rw [if_pos h]
    have hb' : List.dropWhile pySpace b = [] := List.dropWhile_eq_nil_iff.mpr hb
    have hx' : List.dropWhile pySpace x = [] := by
      cases hxe : x.dropWhile pySpace with
      | nil => rfl
      | cons c l => rw [hxe] at h; simp at h
    rw [hb', hx']
  · rw [if_neg h]
    rw [List.reverse_append]
    rw [List.dropWhile_append_of_pos (by intro c hc; exact hb c (List.mem_reverse.mp hc))]

/-- parseTextL only looks at the stripped input. -/
theorem parseTextL_strip_congr {s s' : List Char} (h : stripL s = stripL s') :
    parseTextL s = parseTextL s' := by
  unfold parseTextL
  rw [h]

/-- Claim C10: parse_text strips outer whitespace before any detector
runs, so padding the input with whitespace on either side does not change
the result. -/
theorem C10_outer_whitespace (t : String) (a b : List Char)
    (ha : ∀ c ∈ a, pySpace c = true) (hb : ∀ c ∈ b, pySpace c = true) :
    parse_text (String.mk (a ++ t.data ++ b)) = parse_text t := by
  unfold parse_text
  have : parseTextL (a ++ t.data ++ b) = parseTextL t.data := by
    apply parseTextL_strip_congr
    rw [List.append_assoc, stripL_append_left ha, stripL_append_right hb]
  rw [show (String.mk (a ++ t.data ++ b)).data = a ++ t.data ++ b from rfl, this]

/-- Witness for claim C10: padding "1. A\n2. B" with outer whitespace,
including leading whitespace before the first list marker, leaves the
parse unchanged. -/
theorem C10_outer_whitespace_witness :
    parse_text (String.mk ([' ', '\t'] ++ ("1. A\n2. B").data ++ ['\n', ' '])) =
      parse_text "1. A\n2. B" :=
  C10_outer_whitespace "1. A\n2. B" [' ', '\t'] ['\n', ' '] (by decide) (by decide)

/-- Any position where the checkbox pattern matches is a position where
the dash/asterisk bullet pattern matches: a checkbox match starts with a
dash and has at least one non-whitespace character after it (the opening
bracket). -/
theorem matchBulletDash_of_checkbox {s : List Char} {x}
    (h : matchCheckbox s = some x) : ∃ y, matchBulletDash s = some y := by
  match s with
  | [] => simp [matchCheckbox] at h
  | c :: s₁ =>
    by_cases hc : c = '-'
    · cases hd : s₁.dropWhile pySpace with
      | nil =>
        simp only [matchCheckbox, if_pos hc, hd] at h
        exact Option.noConfusion h
      | cons c₂ s₂ =>
        have ha : ∃ p, afterWs s₁ = some p := by
          simp only [afterWs, hd]
          exact ⟨_, rfl⟩
        obtain ⟨p, hp⟩ := ha
        refine ⟨(p.1, 1 + p.2), ?_⟩
        simp only [matchBulletDash]
        rw [if_pos (Or.inl hc), hp]
        rfl
    · simp only [matchCheckbox, if_neg hc] at h
      exact Option.noConfusion h

/-- If the dash/asterisk bullet scan finds nothing, the checkbox scan
finds nothing either (same fuel, same anchor flag, same text). -/
theorem findAllGo_checkbox_eq_nil {fuel : Nat} {b : Bool} {s : List Char}
    (h : findAllGo matchBulletDash fuel b s = []) :
    findAllGo matchCheckbox fuel b s = [] := by
  induction fuel generalizing b s with
  | zero => rfl
  | succ n ih =>
    cases s with
    | nil => rfl
    | cons c rest =>
      cases b with
      | false =>
        simp only [findAllGo, if_neg (by simp : ¬(false = true))] at h ⊢
        exact ih h
      | true =>
        cases hm : matchBulletDash (c :: rest) with
        | some y => simp [findAllGo, hm] at h
        | none =>
          have hcb : matchCheckbox (c :: rest) = none := by
            cases hx : matchCheckbox (c :: rest) with
            | none => rfl
            | some x =>
              obtain ⟨y, hy⟩ := matchBulletDash_of_checkbox hx
              rw [hm] at hy
              exact absurd hy (by simp)
          simp only [findAllGo, if_pos rfl, hm, hcb] at h ⊢
          exact ih h

/-- Claim C9: the markdown-checkbox sub-pattern can never be the winning
detector, so removing it from the bulleted-list loop does not change
parse_text on any input. -/
theorem C9_checkbox_redundant : ∀ s : String, parse_text_noCheckbox s = parse_text s := by
  intro s
  unfold parse_text parse_text_noCheckbox
  congr 1
  unfold parseTextL parseTextLNoCheckbox
  by_cases h1 : (findAll matchNumbered (stripL s.data)).isEmpty
  · by_cases h2 : (findAll matchBulletDot (stripL s.data)).isEmpty
    · by_cases h3 : (findAll matchBulletDash (stripL s.data)).isEmpty
      · have h4 : (findAll matchCheckbox (stripL s.data)).isEmpty = true := by
          have h3' : findAll matchBulletDash (stripL s.data) = [] :=
            List.isEmpty_iff.mp h3
          have : findAll matchCheckbox (stripL s.data) = [] := by
            unfold findAll at h3' ⊢
            exact findAllGo_checkbox_eq_nil h3'
          rw [this]; rfl
        simp [h1, h2, h3, h4]
      · simp [h1, h2, h3]
    · simp [h1, h2]
  · simp [h1]

/-- The head of a non-empty `dropWhile` result fails the predicate. -/
theorem dropWhile_head_false {p : Char → Bool} :
    ∀ {l c cs}, List.dropWhile p l = c :: cs → p c = false := by
  intro l
  induction l with
  | nil => intro c cs h; exact absurd h (by simp)
  | cons a l ih =>
    intro c cs h
    by_cases ha : p a
    · rw [List.dropWhile_cons_of_pos ha] at h
      exact ih h
    · rw [List.dropWhile_cons_of_neg ha] at h
      cases h
      exact Bool.eq_false_iff.mpr ha

/-- stripL, written with Mathlib's right-side dropWhile. -/
theorem stripL_eq_rdropWhile (s : List Char) :
    stripL s = List.rdropWhile pySpace (s.dropWhile pySpace) := rfl

/-- The stripped list decomposes its source: whitespace, the stripped
core, whitespace. -/
theorem stripL_within (s : List Char) : ∃ p q, s = p ++ stripL s ++ q := by
  refine ⟨s.takeWhile pySpace, (s.dropWhile pySpace).reverse.takeWhile pySpace |>.reverse, ?_⟩
  have h1 : s = s.takeWhile pySpace ++ s.dropWhile pySpace :=
    (List.takeWhile_append_dropWhile pySpace s).symm
  have h2 : s.dropWhile pySpace =
      stripL s ++ ((s.dropWhile pySpace).reverse.takeWhile pySpace).reverse := by
    conv_lhs => rw [← List.reverse_reverse (s.dropWhile pySpace),
      ← List.takeWhile_append_dropWhile (p := pySpace) (l := (s.dropWhile pySpace).reverse)]
    rw [List.reverse_append]
    rfl
  rw [List.append_assoc, ← h2]
  exact h1

/-- A stripped list has no leading whitespace. -/
theorem stripL_dropWhile (s : List Char) :
    (stripL s).dropWhile pySpace = stripL s := by
  have h2 : ∃ w, s.dropWhile pySpace = stripL s ++ w := by
    refine ⟨((s.dropWhile pySpace).reverse.takeWhile pySpace).reverse, ?_⟩
    conv_lhs => rw [← List.reverse_reverse (s.dropWhile pySpace),
      ← List.takeWhile_append_dropWhile (p := pySpace) (l := (s.dropWhile pySpace).reverse)]
    rw [List.reverse_append]
    rfl
  obtain ⟨w, hw⟩ := h2
  cases hc : stripL s with
  | nil => rfl
  | cons c v =>
    rw [hc, List.cons_append] at hw
    have : pySpace c = false := dropWhile_head_false hw
    exact List.dropWhile_cons_of_neg (by simp [this])

/-- A stripped list has no trailing whitespace. -/
theorem stripL_rdropWhile (s : List Char) :
    List.rdropWhile pySpace (stripL s) = stripL s := by
  rw [stripL_eq_rdropWhile]
  exact List.rdropWhile_idempotent _ _

/-- Python strip is idempotent. -/
theorem stripL_idem (s : List Char) : stripL (stripL s) = stripL s := by
  calc stripL (stripL s)
      = List.rdropWhile pySpace ((stripL s).dropWhile pySpace) := rfl
    _ = List.rdropWhile pySpace (stripL s) := by rw [stripL_dropWhile]
    _ = stripL s := stripL_rdropWhile s

/-- chainEmbeds survives arbitrary junk prepended to the target. -/
theorem chainEmbeds_prepend {es : List (List Char)} {s : List Char} (w : List Char)
    (h : chainEmbeds es s) : chainEmbeds es (w ++ s) := by
  cases es with
  | nil => trivial
  | cons e es =>
    obtain ⟨p, q, rfl, hc⟩ := h
    exact ⟨w ++ p, q, by simp [List.append_assoc], hc⟩

/-- chainEmbeds survives arbitrary junk appended to the target. -/
theorem chainEmbeds_append_right {es : List (List Char)} :
    ∀ {s : List Char} (w : List Char), chainEmbeds es s → chainEmbeds es (s ++ w) := by
  induction es with
  | nil => intro s w _; trivial
  | cons e es ih =>
    intro s w h
    obtain ⟨p, q, rfl, hc⟩ := h
    exact ⟨p, q ++ w, by simp [List.append_assoc], ih w hc⟩

/-- chainEmbeds transfers along an enclosing decomposition. -/
theorem chainEmbeds_of_within {l : List (List Char)} {m s : List Char}
    (h : chainEmbeds l m) (hw : ∃ p q, s = p ++ m ++ q) : chainEmbeds l s := by
  obtain ⟨p, q, rfl⟩ := hw
  have := chainEmbeds_prepend p (chainEmbeds_append_right q h)
  rwa [← List.append_assoc] at this

/-- Stripping every element preserves chainEmbeds. -/
theorem chainEmbeds_map_stripL {l : List (List Char)} :
    ∀ {s : List Char}, chainEmbeds l s → chainEmbeds (l.map stripL) s := by
  induction l with
  | nil => intro s _; trivial
  | cons e es ih =>
    intro s h
    obtain ⟨p, q, rfl, hc⟩ := h
    obtain ⟨p', q', he⟩ := stripL_within e
    refine ⟨p ++ p', q' ++ q, ?_, chainEmbeds_prepend q' (ih hc)⟩
    conv_lhs => rw [he]
    simp [List.append_assoc]

/-- Filtering elements preserves chainEmbeds. -/
theorem chainEmbeds_filter {f : List Char → Bool} {l : List (List Char)} :
    ∀ {s : List Char}, chainEmbeds l s → chainEmbeds (l.filter f) s := by
  induction l with
  | nil => intro s _; trivial
  | cons e es ih =>
    intro s h
    obtain ⟨p, q, rfl, hc⟩ := h
    by_cases hf : f e
    · rw [List.filter_cons_of_pos hf]
      exact ⟨p, q, rfl, ih hc⟩
    · rw [List.filter_cons_of_neg (by simp [hf])]
      exact chainEmbeds_prepend (p ++ e) (ih hc)

/-- Normalisation (strip each element, drop empties) preserves chainEmbeds. -/
theorem chainEmbeds_normalize {l : List (List Char)} {s : List Char}
    (h : chainEmbeds l s) : chainEmbeds (normalize l) s :=
  chainEmbeds_filter (chainEmbeds_map_stripL h)

/-- Dropping past an appended block. -/
theorem drop_len_append {α : Type} (l₁ l₂ : List α) (n : Nat) :
    List.drop (l₁.length + n) (l₁ ++ l₂) = List.drop n l₂ := by
  rw [← List.drop_drop, List.drop_left]

/-- backIdx returns an in-range index whose character is not a newline. -/
theorem backIdx_spec : ∀ {ws : List Char} {q}, backIdx ws = some q →
    ∃ c cs, ws.drop q = c :: cs ∧ c ≠ '\n' := by
  intro ws
  induction ws with
  | nil => intro q h; exact absurd h (by simp [backIdx])
  | cons a l ih =>
    intro q h
    rw [backIdx] at h
    cases hb : backIdx l with
    | some i =>
      rw [hb] at h
      cases h
      exact ih hb
    | none =>
      rw [hb] at h
      by_cases ha : a ≠ '\n'
      · rw [if_pos ha] at h
        cases h
        exact ⟨a, l, rfl, ha⟩
      · rw [if_neg ha] at h
        exact absurd h (by simp)

/-- Dropping past two appended blocks. -/
theorem drop_two_blocks {α : Type} (A B C : List α) (δ : Nat) :
    List.drop (A.length + B.length + δ) (A ++ (B ++ C)) = List.drop δ C := by
  rw [Nat.add_assoc, drop_len_append, drop_len_append]

/-- Position specification for the regex tail `\s*(.+?)(?:\n|$)`: the
capture sits inside the input, whatever follows it begins with the
remainder of the match, and the match consumes at least one character. -/
theorem afterWs_spec {s₂ cap : List Char} {k : Nat} (h : afterWs s₂ = some (cap, k)) :
    1 ≤ k ∧ ∃ p q w, s₂ = p ++ cap ++ q ∧ q = w ++ List.drop k s₂ := by
  unfold afterWs at h
  cases hd : s₂.dropWhile pySpace with
  | cons c s₃' =>
    rw [hd] at h
    simp only [Option.some.injEq, Prod.mk.injEq] at h
    obtain ⟨hcap, hk⟩ := h
    have hcns : c ≠ '\n' := by
      have := dropWhile_head_false hd
      intro hcn
      rw [hcn] at this
      simp [pySpace] at this
    have hBC : (c :: s₃').takeWhile (fun x => decide (x ≠ '\n')) ++
        (c :: s₃').dropWhile (fun x => decide (x ≠ '\n')) = c :: s₃' :=
      List.takeWhile_append_dropWhile _ _
    have hcapc : (c :: s₃').takeWhile (fun x => decide (x ≠ '\n')) =
        c :: s₃'.takeWhile (fun x => decide (x ≠ '\n')) :=
      List.takeWhile_cons_of_pos (by simpa using hcns)
    have hsplit : s₂ = s₂.takeWhile pySpace ++ (c :: s₃') := by
      conv_lhs => rw [← List.takeWhile_append_dropWhile (p := pySpace) (l := s₂)]
      rw [hd]
    revert hcap hk hBC hcapc hsplit
    generalize s₂.takeWhile pySpace = A
    generalize (c :: s₃').takeWhile (fun x => decide (x ≠ '\n')) = B
    generalize (c :: s₃').dropWhile (fun x => decide (x ≠ '\n')) = C
    intro hcap hk hBC hcapc hsplit
    have hs2 : s₂ = A ++ (B ++ C) := by rw [hsplit, hBC]
    have hk1 : 1 ≤ k := by
      rw [← hk, hcapc]
      simp only [List.length_cons]
      omega
    refine ⟨hk1, A, C, C.take (if C.isEmpty then 0 else 1), ?_, ?_⟩
    · rw [← hcap, hs2, List.append_assoc]
    · have hdropk : List.drop k s₂ = List.drop (if C.isEmpty then 0 else 1) C := by
        rw [← hk, hs2]
        exact drop_two_blocks A B C _
      rw [hdropk, List.take_append_drop]
  | nil =>
    rw [hd] at h
    dsimp only at h
    cases hb : backIdx (s₂.takeWhile pySpace) with
    | none => rw [hb] at h; exact absurd h (by simp)
    | some q₀ =>
      rw [hb] at h
      simp only [Option.some.injEq, Prod.mk.injEq] at h
      obtain ⟨hcap, hk⟩ := h
      have hsws : s₂.takeWhile pySpace = s₂ := by
        conv_rhs => rw [← List.takeWhile_append_dropWhile (p := pySpace) (l := s₂)]
        rw [hd, List.append_nil]
      rw [hsws] at hcap hk hb
      obtain ⟨c, cs, hqc, hcn⟩ := backIdx_spec hb
      have hq0 : q₀ < s₂.length := by
        have := congrArg List.length hqc
        rw [List.length_drop] at this
        simp only [List.length_cons] at this
        omega
      have hBC : (s₂.drop q₀).takeWhile (fun x => decide (x ≠ '\n')) ++
          (s₂.drop q₀).dropWhile (fun x => decide (x ≠ '\n')) = s₂.drop q₀ :=
        List.takeWhile_append_dropWhile _ _
      have hcapc : (s₂.drop q₀).takeWhile (fun x => decide (x ≠ '\n')) =
          c :: cs.takeWhile (fun x => decide (x ≠ '\n')) := by
        rw [hqc]
        exact List.takeWhile_cons_of_pos (by simpa using hcn)
      have hsplit : s₂ = s₂.take q₀ ++ s₂.drop q₀ := (List.take_append_drop _ _).symm
      have hlenA : (s₂.take q₀).length = q₀ := by
        rw [List.length_take]
        omega
      revert hcap hk hBC hcapc hsplit hlenA
      generalize s₂.take q₀ = A
      generalize (s₂.drop q₀).takeWhile (fun x => decide (x ≠ '\n')) = B
      generalize (s₂.drop q₀).dropWhile (fun x => decide (x ≠ '\n')) = C
      intro hcap hk hBC hcapc hsplit hlenA
      have hs2 : s₂ = A ++ (B ++ C) := by rw [hsplit, ← hBC]
      have hk1 : 1 ≤ k := by
        rw [← hk, hcapc]
        simp only [List.length_cons]
        omega
      refine ⟨hk1, A, C, C.take (if C.isEmpty then 0 else 1), ?_, ?_⟩
      · rw [← hcap, hs2, List.append_assoc]
      · have hdropk : List.drop k s₂ = List.drop (if C.isEmpty then 0 else 1) C := by
          rw [← hk, hs2, ← hlenA]
          exact drop_two_blocks A B C _
        rw [hdropk, List.take_append_drop]

/-- Lifting afterWs_spec across one leading character of a pattern. -/
theorem headMatcher_H {c : Char} {s₂ a : List Char} {k₂ : Nat}
    (hA : afterWs s₂ = some (a, k₂)) :
    ∃ p q w, c :: s₂ = p ++ a ++ q ∧ q = w ++ List.drop (max (1 + k₂) 1) (c :: s₂) := by
  obtain ⟨hk1, p₂, q₂, w₂, hsp, hq⟩ := afterWs_spec hA
  refine ⟨c :: p₂, q₂, w₂, ?_, ?_⟩
  · conv_lhs => rw [hsp]
    simp [List.append_assoc]
  · have hmax : max (1 + k₂) 1 = 1 + k₂ := by omega
    rw [hmax, Nat.add_comm, List.drop_succ_cons]
    exact hq

/-- Capture-position specification for the numbered-list matcher. -/
theorem matchNumbered_H {s a : List Char} {k : Nat} (h : matchNumbered s = some (a, k)) :
    ∃ p q w, s = p ++ a ++ q ∧ q = w ++ List.drop (max k 1) s := by
  unfold matchNumbered at h
  by_cases hds : (s.takeWhile Char.isDigit).isEmpty
  · rw [if_pos hds] at h
    exact absurd h (by simp)
  · rw [if_neg hds] at h
    cases hd : s.dropWhile Char.isDigit with
    | nil => rw [hd] at h; exact absurd h (by simp)
    | cons c s₂ =>
      rw [hd] at h
      dsimp only at h
      by_cases hc : c = '.'
      · rw [if_pos hc] at h
        rw [Option.map_eq_some'] at h
        obtain ⟨⟨cap, k₂⟩, hA, hEq⟩ := h
        have ha : a = cap := by
          have := congrArg Prod.fst hEq
          simpa using this.symm
        have hvalk : k = (s.takeWhile Char.isDigit).length + 1 + k₂ := by
          have := congrArg Prod.snd hEq
          simpa using this.symm
        obtain ⟨hk1, p₂, q₂, w₂, hsp, hq⟩ := afterWs_spec hA
        have hs : s = s.takeWhile Char.isDigit ++ (c :: s₂) := by
          conv_lhs => rw [← List.takeWhile_append_dropWhile (p := Char.isDigit) (l := s)]
          rw [hd]
        revert hvalk hs
        generalize List.takeWhile Char.isDigit s = D
        intro hvalk hs
        refine ⟨D ++ c :: p₂, q₂, w₂, ?_, ?_⟩
        · conv_lhs => rw [hs]
          rw [ha, hsp]
          simp [List.append_assoc]
        · have hmax : max k 1 = k := by omega
          have hdrop : List.drop k s = List.drop k₂ s₂ := by
            conv_lhs => rw [hvalk, hs]
            rw [Nat.add_assoc, drop_len_append, Nat.add_comm, List.drop_succ_cons]
          rw [hmax, hdrop]
          exact hq
      · rw [if_neg hc] at h
        exact absurd h (by simp)

/-- Capture-position specification for the dot-bullet matcher. -/
theorem matchBulletDot_H {s a : List Char} {k : Nat} (h : matchBulletDot s = some (a, k)) :
    ∃ p q w, s = p ++ a ++ q ∧ q = w ++ List.drop (max k 1) s := by
  unfold matchBulletDot at h
  cases s with
  | nil => exact absurd h (by simp)
  | cons c s₂ =>
    dsimp only at h
    by_cases hc : c = '•' ∨ c = '·'
    · rw [if_pos hc] at h
      rw [Option.map_eq_some'] at h
      obtain ⟨⟨cap, k₂⟩, hA, hEq⟩ := h
      have ha : a = cap := by
        have := congrArg Prod.fst hEq
        simpa using this.symm
      have hvalk : k = 1 + k₂ := by
        have := congrArg Prod.snd hEq
        simpa using this.symm
      rw [ha, hvalk]
      exact headMatcher_H hA
    · rw [if_neg hc] at h
      exact absurd h (by simp)

/-- Capture-position specification for the dash/asterisk bullet matcher. -/
theorem matchBulletDash_H {s a : List Char} {k : Nat} (h : matchBulletDash s = some (a, k)) :
    ∃ p q w, s = p ++ a ++ q ∧ q = w ++ List.drop (max k 1) s := by
  unfold matchBulletDash at h
  cases s with
  | nil => exact absurd h (by simp)
  | cons c s₂ =>
    dsimp only at h
    by_cases hc : c = '-' ∨ c = '*'
    · rw [if_pos hc] at h
      rw [Option.map_eq_some'] at h
      obtain ⟨⟨cap, k₂⟩, hA, hEq⟩ := h
      have ha : a = cap := by
        have := congrArg Prod.fst hEq
        simpa using this.symm
      have hvalk : k = 1 + k₂ := by
        have := congrArg Prod.snd hEq
        simpa using this.symm
      rw [ha, hvalk]
      exact headMatcher_H hA
    · rw [if_neg hc] at h
      exact absurd h (by simp)

/-- Capture-position specification for the checkbox matcher with respect
to the capture the source keeps, the first group (the checkbox state). -/
theorem matchCheckbox_H {s : List Char} {a : List Char × List Char} {k : Nat}
    (h : matchCheckbox s = some (a, k)) :
    ∃ p q w, s = p ++ a.1 ++ q ∧ q = w ++ List.drop (max k 1) s := by
  unfold matchCheckbox at h
  cases s with
  | nil => exact absurd h (by simp)
  | cons c s₁ =>
    dsimp only at h
    by_cases hc : c = '-'
    · rw [if_pos hc] at h
      cases hd1 : s₁.dropWhile pySpace with
      | nil => rw [hd1] at h; exact absurd h (by simp)
      | cons c₂ s₂ =>
        rw [hd1] at h
        dsimp only at h
        by_cases hc2 : c₂ = '['
        · rw [if_pos hc2] at h
          cases hd2 : s₂.dropWhile (fun x => decide (x ≠ ']' ∧ x ≠ '\n')) with
          | nil => rw [hd2] at h; exact absurd h (by simp)
          | cons c₃ s₃ =>
            rw [hd2] at h
            dsimp only at h
            by_cases hc3 : c₃ = ']'
            · rw [if_pos hc3] at h
              rw [Option.map_eq_some'] at h
              obtain ⟨⟨cap, k₃⟩, hA, hEq⟩ := h
              have ha : a = (s₂.takeWhile (fun x => decide (x ≠ ']' ∧ x ≠ '\n')), cap) := by
                have := congrArg Prod.fst hEq
                simpa using this.symm
              have hvalk : k = 1 + (s₁.takeWhile pySpace).length + 1 +
                  (s₂.takeWhile (fun x => decide (x ≠ ']' ∧ x ≠ '\n'))).length + 1 + k₃ := by
                have := congrArg Prod.snd hEq
                simpa using this.symm
              have hs1 : s₁ = s₁.takeWhile pySpace ++ (c₂ :: s₂) := by
                conv_lhs => rw [← List.takeWhile_append_dropWhile (p := pySpace) (l := s₁)]
                rw [hd1]
              have hs2 : s₂ = s₂.takeWhile (fun x => decide (x ≠ ']' ∧ x ≠ '\n')) ++
                  (c₃ :: s₃) := by
                conv_lhs => rw [← List.takeWhile_append_dropWhile
                  (p := fun x => decide (x ≠ ']' ∧ x ≠ '\n')) (l := s₂)]
                rw [hd2]
              have hsfull : c :: s₁ = ((c :: s₁.takeWhile pySpace) ++ [c₂]) ++
                  (a.1 ++ (c₃ :: s₃)) := by
                rw [ha]
                conv_lhs => rw [hs1, hs2]
                simp [List.append_assoc]
              refine ⟨(c :: s₁.takeWhile pySpace) ++ [c₂], c₃ :: s₃,
                c₃ :: s₃.take k₃, ?_, ?_⟩
              · rw [hsfull]
                simp [List.append_assoc]
              · have hmax : max k 1 = k := by omega
                have hdrop : List.drop k (c :: s₁) = List.drop k₃ s₃ := by
                  rw [hmax] at *
                  conv_lhs => rw [hsfull]
                  have hresh : k = ((c :: s₁.takeWhile pySpace) ++ [c₂]).length +
                      (a.1.length + (1 + k₃)) := by
                    rw [hvalk, ha]
                    simp [List.length_append]
                    omega
                  rw [hresh, drop_len_append]
                  rw [show a.1 ++ (c₃ :: s₃) = a.1 ++ (c₃ :: s₃) from rfl]
                  rw [drop_len_append, Nat.add_comm, List.drop_succ_cons]
                rw [hmax, hdrop, List.cons_append, List.take_append_drop]
            · rw [if_neg hc3] at h
              exact absurd h (by simp)
        · rw [if_neg hc2] at h
          exact absurd h (by simp)
    · rw [if_neg hc] at h
      exact absurd h (by simp)

/-- The scanning loop only emits captures that occur, in order and
disjointly, inside the scanned text. -/
theorem findAllGo_chain {α : Type} {m : List Char → Option (α × Nat)} (g : α → List Char)
    (H : ∀ {s a k}, m s = some (a, k) →
      ∃ p q w, s = p ++ g a ++ q ∧ q = w ++ List.drop (max k 1) s) :
    ∀ (fuel : Nat) (b : Bool) (s : List Char),
      chainEmbeds ((findAllGo m fuel b s).map g) s := by
  intro fuel
  induction fuel with
  | zero =>
    intro b s
    simp only [findAllGo, List.map_nil]
    trivial
  | succ n ih =>
    intro b s
    cases s with
    | nil =>
      simp only [findAllGo, List.map_nil]
      trivial
    | cons c rest =>
      cases b with
      | false =>
        have hstep : findAllGo m (n + 1) false (c :: rest) =
            findAllGo m n (c == '\n') rest := rfl
        rw [hstep]
        exact chainEmbeds_prepend [c] (ih _ rest)
      | true =>
        cases hm : m (c :: rest) with
        | none =>
          simp only [findAllGo, if_pos rfl, hm]
          exact chainEmbeds_prepend [c] (ih _ rest)
        | some ak =>
          obtain ⟨a, k⟩ := ak
          simp only [findAllGo, if_pos rfl, hm, List.map_cons]
          obtain ⟨p, q, w, hs, hq⟩ := H hm
          refine ⟨p, q, hs, ?_⟩
          rw [hq]
          exact chainEmbeds_prepend w (ih _ _)

/-- The captures of the numbered-list scan embed in order in the text. -/
theorem findAll_numbered_chain (s : List Char) :
    chainEmbeds (findAll matchNumbered s) s := by
  have := findAllGo_chain (m := matchNumbered) id
    (fun h => matchNumbered_H h) s.length true s
  rwa [List.map_id] at this

/-- The captures of the dot-bullet scan embed in order in the text. -/
theorem findAll_bulletDot_chain (s : List Char) :
    chainEmbeds (findAll matchBulletDot s) s := by
  have := findAllGo_chain (m := matchBulletDot) id
    (fun h => matchBulletDot_H h) s.length true s
  rwa [List.map_id] at this

/-- The captures of the dash-bullet scan embed in order in the text. -/
theorem findAll_bulletDash_chain (s : List Char) :
    chainEmbeds (findAll matchBulletDash s) s := by
  have := findAllGo_chain (m := matchBulletDash) id
    (fun h => matchBulletDash_H h) s.length true s
  rwa [List.map_id] at this

/-- The first captures of the checkbox scan embed in order in the text. -/
theorem findAll_checkbox_chain (s : List Char) :
    chainEmbeds ((findAll matchCheckbox s).map Prod.fst) s :=
  findAllGo_chain (m := matchCheckbox) Prod.fst
    (fun h => matchCheckbox_H h) s.length true s

/-- The segments produced by the comma loop embed, in order, in the
pending segment followed by the remaining text. -/
theorem commaParts_chain : ∀ (s cur : List Char) (d : Int),
    chainEmbeds (commaParts s cur d) (cur ++ s) := by
  intro s
  induction s with
  | nil =>
    intro cur d
    simp only [commaParts]
    by_cases h : (stripL cur).isEmpty
    · rw [if_pos h]; trivial
    · rw [if_neg h]
      obtain ⟨p, q, hpq⟩ := stripL_within cur
      exact ⟨p, q, by rw [List.append_nil]; exact hpq, trivial⟩
  | cons c rest ih =>
    intro cur d
    simp only [commaParts]
    by_cases h1 : c = '(' ∨ c = '[' ∨ c = '{'
    · rw [if_pos h1]
      have := ih (cur ++ [c]) (d + 1)
      rwa [List.append_assoc] at this
    · rw [if_neg h1]
      by_cases h2 : c = ')' ∨ c = ']' ∨ c = '}'
      · rw [if_pos h2]
        have := ih (cur ++ [c]) (d - 1)
        rwa [List.append_assoc] at this
      · rw [if_neg h2]
        by_cases h3 : c = ',' ∧ d = 0
        · rw [if_pos h3]
          obtain ⟨p, q, hpq⟩ := stripL_within cur
          refine ⟨p, q ++ c :: rest, ?_, ?_⟩
          · conv_lhs => rw [hpq]
            simp [List.append_assoc]
          · have := ih [] 0
            rw [List.nil_append] at this
            have h4 := chainEmbeds_prepend (q ++ [c]) this
            rwa [List.append_assoc, List.singleton_append] at h4
        · rw [if_neg h3]
          have := ih (cur ++ [c]) d
          rwa [List.append_assoc] at this

/-- Structure of `str.split(sep)`: the result is non-empty, its head is a
literal segment of the source and its tail embeds in the rest. -/
theorem splitOnChar_spec (sep : Char) : ∀ s : List Char,
    ∃ r rs, splitOnChar sep s = r :: rs ∧
      ∃ post, s = r ++ post ∧ chainEmbeds rs post := by
  intro s
  induction s with
  | nil => exact ⟨[], [], rfl, [], rfl, trivial⟩
  | cons c rest ih =>
    obtain ⟨r, rs, hsplit, post, hpost, hchain⟩ := ih
    by_cases hc : c = sep
    · refine ⟨[], splitOnChar sep rest, ?_, c :: rest, rfl, ?_⟩
      · simp [splitOnChar, hc]
      · rw [hsplit]
        exact ⟨[c], post, by rw [hpost]; rfl, hchain⟩
    · refine ⟨c :: r, rs, ?_, post, ?_, hchain⟩
      · simp only [splitOnChar, if_neg hc, hsplit]
      · rw [hpost]; rfl

/-- The segments of `str.split(sep)` embed in order in the source. -/
theorem splitOnChar_chain (sep : Char) (s : List Char) :
    chainEmbeds (splitOnChar sep s) s := by
  obtain ⟨r, rs, hs, post, hp, hc⟩ := splitOnChar_spec sep s
  rw [hs]
  exact ⟨[], post, by rw [hp]; rfl, hc⟩

/-- The segments of the `\s+X\s+` splitter embed in order in the pending
segment followed by the remaining text. -/
theorem splitSepGo_chain (x : Char) : ∀ (fuel : Nat) (cur s : List Char),
    chainEmbeds (splitSepGo x fuel cur s) (cur ++ s) := by
  intro fuel
  induction fuel with
  | zero =>
    intro cur s
    cases s with
    | nil =>
      simp only [splitSepGo]
      exact ⟨[], [], by simp, trivial⟩
    | cons c rest =>
      simp only [splitSepGo]
      exact ⟨[], [], by simp, trivial⟩
  | succ n ih =>
    intro cur s
    cases s with
    | nil =>
      simp only [splitSepGo]
      exact ⟨[], [], by simp, trivial⟩
    | cons c rest =>
      simp only [splitSepGo]
      by_cases hc : pySpace c
      · rw [if_pos hc]
        have hrw : rest = rest.takeWhile pySpace ++ rest.dropWhile pySpace :=
          (List.takeWhile_append_dropWhile _ _).symm
        cases hr : rest.dropWhile pySpace with
        | nil =>
          dsimp only
          refine ⟨[], [], ?_, trivial⟩
          rw [List.nil_append, List.append_nil]
          conv_lhs => rw [hrw, hr]
          simp
        | cons y r2 =>
          dsimp only
          by_cases hy : y = x
          · rw [if_pos hy]
            cases hr2 : r2 with
            | nil =>
              dsimp only
              refine ⟨[], [], ?_, trivial⟩
              rw [List.nil_append, List.append_nil]
              conv_lhs => rw [hrw, hr, hr2]
              simp
            | cons z r3 =>
              dsimp only
              by_cases hz : pySpace z
              · rw [if_pos hz]
                refine ⟨[], c :: rest, rfl, ?_⟩
                have h3 : c :: rest =
                    (c :: (rest.takeWhile pySpace ++ y :: z :: r3.takeWhile pySpace)) ++
                      r3.dropWhile pySpace := by
                  conv_lhs => rw [hrw, hr, hr2,
                    show r3 = r3.takeWhile pySpace ++ r3.dropWhile pySpace from
                      (List.takeWhile_append_dropWhile _ _).symm]
                  simp [List.append_assoc]
                rw [h3]
                have := ih [] (r3.dropWhile pySpace)
                rw [List.nil_append] at this
                exact chainEmbeds_prepend _ this
              · rw [if_neg hz]
                have heq : (cur ++ c :: rest.takeWhile pySpace ++ [y]) ++ z :: r3 =
                    cur ++ c :: rest := by
                  conv_rhs => rw [hrw, hr]
                  simp [List.append_assoc, hr2]
                have := ih (cur ++ c :: rest.takeWhile pySpace ++ [y]) (z :: r3)
                rwa [heq] at this
          · rw [if_neg hy]
            have heq : (cur ++ c :: rest.takeWhile pySpace) ++ y :: r2 =
                cur ++ c :: rest := by
              conv_rhs => rw [hrw, hr]
              simp [List.append_assoc]
            have := ih (cur ++ c :: rest.takeWhile pySpace) (y :: r2)
            rwa [heq] at this
      · rw [if_neg hc]
        have := ih (cur ++ [c]) rest
        rwa [List.append_assoc, List.singleton_append] at this

/-- The segments of `re.split(r'\s+X\s+', s)` embed in order in `s`. -/
theorem splitSep_chain (x : Char) (s : List Char) :
    chainEmbeds (splitSep x s) s := by
  have := splitSepGo_chain x s.length [] s
  rwa [List.nil_append] at this

/-- The single-line fallback splits within the line. -/
theorem singleLineSplit_chain (line : List Char) :
    chainEmbeds (singleLineSplit line) line := by
  unfold singleLineSplit
  by_cases h1 : sepOccurs '|' line
  · rw [if_pos h1]
    exact chainEmbeds_normalize (splitSep_chain '|' line)
  · rw [if_neg h1]
    by_cases h2 : sepOccurs 'и' line
    · rw [if_pos h2]
      exact chainEmbeds_normalize (splitSep_chain 'и' line)
    · rw [if_neg h2]
      by_cases h3 : sepOccurs '+' line
      · rw [if_pos h3]
        exact chainEmbeds_normalize (splitSep_chain '+' line)
      · rw [if_neg h3]
        exact ⟨[], [], by simp, trivial⟩

/-- The tail of the detector chain produces segments embedding in order in
the text. -/
theorem restChain_chain (text : List Char) : chainEmbeds (restChain text) text := by
  unfold restChain
  by_cases hsc : text.contains ';'
  · rw [if_pos hsc]
    exact chainEmbeds_normalize (splitOnChar_chain ';' text)
  · rw [if_neg hsc]
    dsimp only
    have hl : chainEmbeds (normalize (splitOnChar '\n' text)) text :=
      chainEmbeds_normalize (splitOnChar_chain '\n' text)
    cases hls : normalize (splitOnChar '\n' text) with
    | nil => exact trivial
    | cons line ls0 =>
      cases ls0 with
      | nil =>
        rw [hls] at hl
        obtain ⟨p, q, heq, _⟩ := hl
        exact chainEmbeds_of_within (singleLineSplit_chain line) ⟨p, q, heq⟩
      | cons l2 ls =>
        rw [hls] at hl
        exact hl

/-- The full detector chain produces tasks embedding in order in the
input. -/
theorem parseTextL_chain (input : List Char) :
    chainEmbeds (parseTextL input) input := by
  have hw := stripL_within input
  have core : chainEmbeds (parseTextL input) (stripL input) := by
    unfold parseTextL
    by_cases h1 : (findAll matchNumbered (stripL input)).isEmpty
    · by_cases h2 : (findAll matchBulletDot (stripL input)).isEmpty
      · by_cases h3 : (findAll matchBulletDash (stripL input)).isEmpty
        · by_cases h4 : (findAll matchCheckbox (stripL input)).isEmpty
          · simp only [h1, h2, h3, h4, Bool.not_true, Bool.false_eq_true, if_false]
            by_cases hc : (stripL input).contains ','
            · rw [if_pos hc]
              by_cases hlen : 1 < (commaParts (stripL input) [] 0).length
              · rw [if_pos hlen]
                have := commaParts_chain (stripL input) [] 0
                rw [List.nil_append] at this
                exact chainEmbeds_filter this
              · rw [if_neg hlen]
                exact restChain_chain (stripL input)
            · rw [if_neg hc]
              exact restChain_chain (stripL input)
          · simp only [h1, h2, h3, h4, Bool.not_true, Bool.not_false, Bool.false_eq_true,
              if_false, if_true]
            exact chainEmbeds_normalize (findAll_checkbox_chain (stripL input))
        · simp only [h1, h2, h3, Bool.not_true, Bool.not_false, Bool.false_eq_true,
            if_false, if_true]
          exact chainEmbeds_normalize (findAll_bulletDash_chain (stripL input))
      · simp only [h1, h2, Bool.not_true, Bool.not_false, Bool.false_eq_true,
          if_false, if_true]
        exact chainEmbeds_normalize (findAll_bulletDot_chain (stripL input))
    · simp only [h1, Bool.not_false, Bool.false_eq_true, if_true]
      exact chainEmbeds_normalize (findAll_numbered_chain (stripL input))
  exact chainEmbeds_of_within core hw

/-- Elements of a normalised list are stripped and non-empty. -/
theorem normalize_mem {l : List (List Char)} {e : List Char} (h : e ∈ normalize l) :
    stripL e = e ∧ e ≠ [] := by
  unfold normalize at h
  rw [List.mem_filter] at h
  obtain ⟨hm, hne⟩ := h
  rw [List.mem_map] at hm
  obtain ⟨x, _, rfl⟩ := hm
  refine ⟨stripL_idem x, ?_⟩
  intro hnil
  rw [hnil] at hne
  simp at hne

/-- Every segment produced by the comma loop is a stripped string. -/
theorem commaParts_strip {e : List Char} : ∀ {s cur : List Char} {d : Int},
    e ∈ commaParts s cur d → ∃ x, e = stripL x := by
  intro s
  induction s with
  | nil =>
    intro cur d h
    simp only [commaParts] at h
    by_cases hcur : (stripL cur).isEmpty
    · rw [if_pos hcur] at h
      simp at h
    · rw [if_neg hcur] at h
      rw [List.mem_singleton] at h
      exact ⟨cur, h⟩
  | cons c rest ih =>
    intro cur d h
    simp only [commaParts] at h
    by_cases h1 : c = '(' ∨ c = '[' ∨ c = '{'
    · rw [if_pos h1] at h; exact ih h
    · rw [if_neg h1] at h
      by_cases h2 : c = ')' ∨ c = ']' ∨ c = '}'
      · rw [if_pos h2] at h; exact ih h
      · rw [if_neg h2] at h
        by_cases h3 : c = ',' ∧ d = 0
        · rw [if_pos h3] at h
          rw [List.mem_cons] at h
          cases h with
          | inl he => exact ⟨cur, he⟩
          | inr he => exact ih he
        · rw [if_neg h3] at h; exact ih h

/-- Elements of the single-line fallback are stripped and non-empty,
provided the line itself is. -/
theorem singleLineSplit_mem {line e : List Char}
    (hline : stripL line = line ∧ line ≠ []) (h : e ∈ singleLineSplit line) :
    stripL e = e ∧ e ≠ [] := by
  unfold singleLineSplit at h
  by_cases h1 : sepOccurs '|' line
  · rw [if_pos h1] at h; exact normalize_mem h
  · rw [if_neg h1] at h
    by_cases h2 : sepOccurs 'и' line
    · rw [if_pos h2] at h; exact normalize_mem h
    · rw [if_neg h2] at h
      by_cases h3 : sepOccurs '+' line
      · rw [if_pos h3] at h; exact normalize_mem h
      · rw [if_neg h3] at h
        rw [List.mem_singleton] at h
        rw [h]
        exact hline

/-- Elements of the detector-chain tail are stripped and non-empty. -/
theorem restChain_mem {text e : List Char} (h : e ∈ restChain text) :
    stripL e = e ∧ e ≠ [] := by
  unfold restChain at h
  by_cases hsc : text.contains ';'
  · rw [if_pos hsc] at h; exact normalize_mem h
  · rw [if_neg hsc] at h
    dsimp only at h
    cases hls : normalize (splitOnChar '\n' text) with
    | nil =>
      rw [hls] at h
      have h' : e ∈ ([] : List (List Char)) := h
      simp at h'
    | cons line ls0 =>
      cases ls0 with
      | nil =>
        rw [hls] at h
        have h' : e ∈ singleLineSplit line := h
        have hlm : line ∈ normalize (splitOnChar '\n' text) := by
          rw [hls]; exact List.mem_cons_self _ _
        exact singleLineSplit_mem (normalize_mem hlm) h'
      | cons l2 ls =>
        rw [hls] at h
        have h' : e ∈ line :: l2 :: ls := h
        rw [← hls] at h'
        exact normalize_mem h'

/-- Every task produced by the detector chain is stripped and non-empty. -/
theorem parseTextL_mem {input e : List Char} (h : e ∈ parseTextL input) :
    stripL e = e ∧ e ≠ [] := by
  unfold parseTextL at h
  by_cases h1 : (findAll matchNumbered (stripL input)).isEmpty
  · by_cases h2 : (findAll matchBulletDot (stripL input)).isEmpty
    · by_cases h3 : (findAll matchBulletDash (stripL input)).isEmpty
      · by_cases h4 : (findAll matchCheckbox (stripL input)).isEmpty
        · simp only [h1, h2, h3, h4, Bool.not_true, Bool.false_eq_true, if_false] at h
          by_cases hc : (stripL input).contains ','
          · rw [if_pos hc] at h
            by_cases hlen : 1 < (commaParts (stripL input) [] 0).length
            · rw [if_pos hlen] at h
              rw [List.mem_filter] at h
              obtain ⟨hm, hne⟩ := h
              obtain ⟨x, rfl⟩ := commaParts_strip hm
              refine ⟨stripL_idem x, ?_⟩
              intro hnil
              rw [hnil] at hne
              simp at hne
            · rw [if_neg hlen] at h
              exact restChain_mem h
          · rw [if_neg hc] at h
            exact restChain_mem h
        · simp only [h1, h2, h3, h4, Bool.not_true, Bool.not_false, Bool.false_eq_true,
            if_false, if_true] at h
          exact normalize_mem h
      · simp only [h1, h2, h3, Bool.not_true, Bool.not_false, Bool.false_eq_true,
          if_false, if_true] at h
        exact normalize_mem h
    · simp only [h1, h2, Bool.not_true, Bool.not_false, Bool.false_eq_true,
        if_false, if_true] at h
      exact normalize_mem h
  · simp only [h1, Bool.not_false, Bool.false_eq_true, if_true] at h
    exact normalize_mem h

/-- Claim C1: every element of the TaskList returned by parse_text is
non-empty and unchanged by trimming (hence not whitespace-only), and the
elements occur in the source string in their output order, as disjoint
contiguous segments from left to right, regardless of the detector branch
that produced them. -/
theorem C1_tasklist_invariants (s : String) :
    (∀ e ∈ parse_text s, e ≠ "" ∧ String.mk (stripL e.data) = e) ∧
    chainEmbeds ((parse_text s).map String.data) s.data := by
  constructor
  · intro e he
    unfold parse_text at he
    rw [List.mem_map] at he
    obtain ⟨x, hx, rfl⟩ := he
    obtain ⟨hstrip, hne⟩ := parseTextL_mem hx
    constructor
    · intro hcon
      have := congrArg String.data hcon
      exact hne this
    · show String.mk (stripL x) = String.mk x
      rw [hstrip]
  · unfold parse_text
    rw [List.map_map]
    have hid : String.data ∘ String.mk = id := rfl
    rw [hid, List.map_id]
    exact parseTextL_chain s.data

/-- Witness for claim C1 at a concrete parse. -/
theorem C1_tasklist_invariants_witness :
    ("A" : String) ≠ "" ∧ String.mk (stripL ("A" : String).data) = "A" :=
  (C1_tasklist_invariants "1. A\n2. B").1 "A" (by decide)

/-- joinL absorbs a newline-glued head. -/
theorem joinL_cons_append (x y : List Char) (zs : List (List Char)) :
    joinL ((x ++ '\n' :: y) :: zs) = x ++ '\n' :: joinL (y :: zs) := by
  cases zs with
  | nil => rfl
  | cons z zs' => simp [joinL, List.append_assoc]

/-- The worker of String.intercalate, at the level of character lists. -/
theorem intercalate_go_data : ∀ (as : List String) (acc : String),
    (String.intercalate.go acc "\n" as).data = joinL (acc.data :: as.map String.data) := by
  intro as
  induction as with
  | nil => intro acc; rfl
  | cons a as' ih =>
    intro acc
    show (String.intercalate.go (acc ++ "\n" ++ a) "\n" as').data = _
    rw [ih]
    have hdata : (acc ++ "\n" ++ a).data = acc.data ++ '\n' :: a.data := by
      rw [String.data_append, String.data_append]
      simp
    rw [hdata, joinL_cons_append]
    rfl

/-- Python's "\n".join, over strings, agrees with joinL over the
underlying character lists. -/
theorem intercalate_data (ts : List String) :
    (String.intercalate "\n" ts).data = joinL (ts.map String.data) := by
  cases ts with
  | nil => rfl
  | cons a as =>
    show (String.intercalate.go a "\n" as).data = _
    rw [intercalate_go_data]
    rfl

/-- takeWhile of a newline-headed (or empty) remainder, for a predicate
failing on newline. -/
theorem takeWhile_nl_nil {p : Char → Bool} (hp : p '\n' = false) {r : List Char}
    (hr : r = [] ∨ ∃ r', r = '\n' :: r') : r.takeWhile p = [] := by
  rcases hr with rfl | ⟨r', rfl⟩
  · rfl
  · exact List.takeWhile_cons_of_neg (by simp [hp])

/-- dropWhile of a newline-headed (or empty) remainder, for a predicate
failing on newline. -/
theorem dropWhile_nl_self {p : Char → Bool} (hp : p '\n' = false) {r : List Char}
    (hr : r = [] ∨ ∃ r', r = '\n' :: r') : r.dropWhile p = r := by
  rcases hr with rfl | ⟨r', rfl⟩
  · rfl
  · exact List.dropWhile_cons_of_neg (by simp [hp])

/-- A line that does not begin with digits-then-dot cannot match the
numbered pattern, whether it is the last line or is followed by a newline. -/
theorem matchNumbered_none {task r : List Char} (hn : numberedHead task = false)
    (hr : r = [] ∨ ∃ r', r = '\n' :: r') : matchNumbered (task ++ r) = none := by
  have hpd : Char.isDigit '\n' = false := by decide
  have htr : r.takeWhile Char.isDigit = [] := takeWhile_nl_nil hpd hr
  have hdr : r.dropWhile Char.isDigit = r := dropWhile_nl_self hpd hr
  unfold numberedHead at hn
  cases hds : (task.takeWhile Char.isDigit).isEmpty with
  | true =>
    have hdse : task.takeWhile Char.isDigit = [] := List.isEmpty_iff.mp hds
    by_cases htask : task = []
    · subst htask
      simp only [List.nil_append, matchNumbered, htr]
      rfl
    · have h1 : (task ++ r).takeWhile Char.isDigit = [] := by
        rw [List.takeWhile_append, if_neg, hdse]
        rw [hdse]
        simp only [List.length_nil]
        intro hlen
        exact htask (List.eq_nil_of_length_eq_zero hlen.symm)
      simp only [matchNumbered, h1]
      rfl
  | false =>
    rw [hds] at hn
    simp only [Bool.not_false, Bool.true_and] at hn
    have hne : task.takeWhile Char.isDigit ≠ [] := by
      intro hcon
      rw [hcon] at hds
      simp at hds
    have htne : task ≠ [] := by
      intro hcon
      rw [hcon] at hne
      exact hne rfl
    by_cases hall : task.takeWhile Char.isDigit = task
    · have hdt : task.dropWhile Char.isDigit = [] := by
        have h := List.takeWhile_append_dropWhile Char.isDigit task
        rw [hall] at h
        have h2 : task ++ task.dropWhile Char.isDigit = task ++ [] := by
          rw [List.append_nil]; exact h
        exact List.append_cancel_left h2
      have h1 : (task ++ r).takeWhile Char.isDigit = task := by
        rw [List.takeWhile_append, if_pos (by rw [hall]), htr, List.append_nil]
      have h2 : (task ++ r).dropWhile Char.isDigit = r := by
        rw [List.dropWhile_append, if_pos (by rw [hdt]; rfl)]
        exact hdr
      simp only [matchNumbered, h1, h2]
      rw [if_neg (by simpa [List.isEmpty_iff] using htne)]
      rcases hr with rfl | ⟨r', rfl⟩
      · rfl
      · dsimp only
        rw [if_neg (by decide)]
    · have hdt : ∃ c cs, task.dropWhile Char.isDigit = c :: cs := by
        cases hcase : task.dropWhile Char.isDigit with
        | nil =>
          exfalso
          apply hall
          have h := List.takeWhile_append_dropWhile Char.isDigit task
          rw [hcase, List.append_nil] at h
          exact h
        | cons c cs => exact ⟨c, cs, rfl⟩
      obtain ⟨c, cs, hdt⟩ := hdt
      have hcdot : ¬ c = '.' := by
        rw [hdt] at hn
        simpa using hn
      have h2 : (task ++ r).dropWhile Char.isDigit = c :: (cs ++ r) := by
        rw [List.dropWhile_append, if_neg (by rw [hdt]; simp), hdt]
        rfl
      have h1 : ((task ++ r).takeWhile Char.isDigit).isEmpty = false := by
        rw [List.takeWhile_append]
        by_cases hcnd : (task.takeWhile Char.isDigit).length = task.length
        · rw [if_pos hcnd]
          cases htask2 : task with
          | nil => exact absurd htask2 htne
          | cons a l => rfl
        · rw [if_neg hcnd]
          cases hcase : task.takeWhile Char.isDigit with
          | nil => exact absurd hcase hne
          | cons a l => rfl
      simp only [matchNumbered, h1, h2]
      rw [if_neg (by simp), if_neg hcdot]

/-- A non-empty line not starting with a bullet character cannot match the
dot-bullet pattern. -/
theorem matchBulletDot_none {task r : List Char} (hb : bulletHead task = false)
    (ht : task ≠ []) : matchBulletDot (task ++ r) = none := by
  cases task with
  | nil => exact absurd rfl ht
  | cons c cs =>
    unfold bulletHead at hb
    simp only [List.headD_cons, Bool.or_eq_false_iff, beq_eq_false_iff_ne, ne_eq] at hb
    rw [List.cons_append]
    unfold matchBulletDot
    dsimp only
    rw [if_neg (fun h => h.elim hb.1.1.1 hb.1.1.2)]

/-- A non-empty line not starting with a bullet character cannot match the
dash-bullet pattern. -/
theorem matchBulletDash_none {task r : List Char} (hb : bulletHead task = false)
    (ht : task ≠ []) : matchBulletDash (task ++ r) = none := by
  cases task with
  | nil => exact absurd rfl ht
  | cons c cs =>
    unfold bulletHead at hb
    simp only [List.headD_cons, Bool.or_eq_false_iff, beq_eq_false_iff_ne, ne_eq] at hb
    rw [List.cons_append]
    unfold matchBulletDash
    dsimp only
    rw [if_neg (fun h => h.elim hb.1.2 hb.2)]

/-- A non-empty line not starting with a bullet character cannot match the
checkbox pattern. -/
theorem matchCheckbox_none {task r : List Char} (hb : bulletHead task = false)
    (ht : task ≠ []) : matchCheckbox (task ++ r) = none := by
  cases task with
  | nil => exact absurd rfl ht
  | cons c cs =>
    unfold bulletHead at hb
    simp only [List.headD_cons, Bool.or_eq_false_iff, beq_eq_false_iff_ne, ne_eq] at hb
    rw [List.cons_append]
    unfold matchCheckbox
    dsimp only
    rw [if_neg hb.1.2]

/-- Scanning a newline-free block at non-line-start positions finds
nothing, given that the continuation finds nothing. -/
theorem findAllGo_skip_nil {α : Type} {m : List Char → Option (α × Nat)} :
    ∀ (u : List Char) (fuel : Nat) (v : List Char), '\n' ∉ u →
      (∀ f, findAllGo m f false v = []) → findAllGo m fuel false (u ++ v) = [] := by
  intro u
  induction u with
  | nil =>
    intro fuel v _ hv
    simpa using hv fuel
  | cons c u' ih =>
    intro fuel v hnl hv
    cases fuel with
    | zero => rfl
    | succ n =>
      have hstep : findAllGo m (n + 1) false ((c :: u') ++ v) =
          findAllGo m n (c == '\n') (u' ++ v) := rfl
      rw [hstep]
      have hc : (c == '\n') = false := by
        have : c ≠ '\n' := fun h => hnl (h ▸ List.mem_cons_self c u')
        simpa using this
      rw [hc]
      exact ih n v (fun h => hnl (List.mem_cons_of_mem _ h)) hv

/-- Stepping over a newline from a non-line-start position lands at a
line start. -/
theorem findAllGo_false_nl {α : Type} {m : List Char → Option (α × Nat)} {w : List Char}
    (hw : ∀ f, findAllGo m f true w = []) :
    ∀ fuel, findAllGo m fuel false ('\n' :: w) = [] := by
  intro fuel
  cases fuel with
  | zero => rfl
  | succ n =>
    have hstep : findAllGo m (n + 1) false ('\n' :: w) =
        findAllGo m n ('\n' == '\n') w := rfl
    rw [hstep]
    exact hw n

/-- If the matcher fails at every line of the join (with its trailing
remainder), the whole multiline scan of the join finds nothing. -/
theorem findAllGo_join_nil {α : Type} {m : List Char → Option (α × Nat)} :
    ∀ (ts : List (List Char)), (∀ t ∈ ts, t ≠ [] ∧ '\n' ∉ t) →
      (∀ t r, t ∈ ts → (r = [] ∨ ∃ r', r = '\n' :: r') → m (t ++ r) = none) →
      ∀ fuel, findAllGo m fuel true (joinL ts) = [] := by
  intro ts
  induction ts with
  | nil =>
    intro _ _ fuel
    cases fuel <;> rfl
  | cons t ts' ih =>
    intro hprop hm fuel
    obtain ⟨hne, hnl⟩ := hprop t (List.mem_cons_self _ _)
    cases ts' with
    | nil =>
      show findAllGo m fuel true t = []
      cases ht : t with
      | nil => exact absurd ht hne
      | cons c t2 =>
        cases fuel with
        | zero => rfl
        | succ n =>
          have hm0 : m (c :: t2) = none := by
            have h := hm t [] (List.mem_cons_self _ _) (Or.inl rfl)
            rw [List.append_nil, ht] at h
            exact h
          simp only [findAllGo, if_pos rfl, hm0]
          have hc : (c == '\n') = false := by
            have : c ≠ '\n' := by
              intro hcon
              exact hnl (by rw [ht, hcon]; exact List.mem_cons_self _ _)
            simpa using this
          rw [hc]
          have hskip := findAllGo_skip_nil (m := m) t2 n []
            (fun h => hnl (by rw [ht]; exact List.mem_cons_of_mem _ h))
            (fun f => by cases f <;> rfl)
          rwa [List.append_nil] at hskip
    | cons t2' ts'' =>
      show findAllGo m fuel true (t ++ '\n' :: joinL (t2' :: ts'')) = []
      cases ht : t with
      | nil => exact absurd ht hne
      | cons c tr =>
        cases fuel with
        | zero => rfl
        | succ n =>
          have hm0 : m (c :: (tr ++ '\n' :: joinL (t2' :: ts''))) = none := by
            have h := hm t ('\n' :: joinL (t2' :: ts'')) (List.mem_cons_self _ _)
              (Or.inr ⟨_, rfl⟩)
            rw [ht, List.cons_append] at h
            exact h
          rw [List.cons_append]
          simp only [findAllGo, if_pos rfl, hm0]
          have hc : (c == '\n') = false := by
            have : c ≠ '\n' := by
              intro hcon
              exact hnl (by rw [ht, hcon]; exact List.mem_cons_self _ _)
            simpa using this
          rw [hc]
          exact findAllGo_skip_nil tr n ('\n' :: joinL (t2' :: ts''))
            (fun h => hnl (by rw [ht]; exact List.mem_cons_of_mem _ h))
            (findAllGo_false_nl (fun f =>
              ih (fun x hx => hprop x (List.mem_cons_of_mem _ hx))
                (fun x r hx hr => hm x r (List.mem_cons_of_mem _ hx) hr) f))

/-- dropWhile never lengthens a list. -/
theorem dropWhile_length_le {p : Char → Bool} : ∀ (l : List Char),
    (l.dropWhile p).length ≤ l.length := by
  intro l
  induction l with
  | nil => exact Nat.le_refl _
  | cons c cs ih =>
    by_cases hc : p c
    · rw [List.dropWhile_cons_of_pos hc]
      exact Nat.le_succ_of_le ih
    · rw [List.dropWhile_cons_of_neg hc]

/-- A list fixed by dropWhile has a head failing the predicate. -/
theorem dropWhile_eq_self_head {p : Char → Bool} {l : List Char} {c : Char} {cs : List Char}
    (h : l.dropWhile p = l) (hl : l = c :: cs) : p c = false := by
  subst hl
  by_cases hc : p c
  · rw [List.dropWhile_cons_of_pos hc] at h
    have := dropWhile_length_le (p := p) cs
    rw [h] at this
    simp at this
  · exact Bool.eq_false_iff.mpr hc

/-- A stripped list starts with a non-whitespace character. -/
theorem stripped_head {t : List Char} {c : Char} {cs : List Char}
    (hst : stripL t = t) (ht : t = c :: cs) : pySpace c = false := by
  have hdw : t.dropWhile pySpace = t := by
    have := stripL_dropWhile t
    rwa [hst] at this
  exact dropWhile_eq_self_head hdw ht

/-- The reverse of the join of stripped, non-empty tasks starts with a
non-whitespace character. -/
theorem joinL_reverse_head : ∀ (ts : List (List Char)),
    (∀ t ∈ ts, stripL t = t ∧ t ≠ []) → ts ≠ [] →
    ∃ c cs, (joinL ts).reverse = c :: cs ∧ pySpace c = false := by
  intro ts
  induction ts with
  | nil => intro _ h; exact absurd rfl h
  | cons t ts' ih =>
    intro hel _
    obtain ⟨hst, hne⟩ := hel t (List.mem_cons_self _ _)
    cases ts' with
    | nil =>
      have hrd : t.reverse.dropWhile pySpace = t.reverse := by
        have h1 : List.rdropWhile pySpace t = t := by
          have := stripL_rdropWhile t
          rwa [hst] at this
        have h2 := congrArg List.reverse h1
        rwa [List.rdropWhile, List.reverse_reverse] at h2
      cases ht : t.reverse with
      | nil =>
        exfalso
        exact hne (by simpa using congrArg List.reverse ht)
      | cons c cs =>
        exact ⟨c, cs, ht, dropWhile_eq_self_head hrd ht⟩
    | cons t2 ts'' =>
      obtain ⟨c, cs, hrev, hc⟩ := ih (fun x hx => hel x (List.mem_cons_of_mem _ hx))
        (by simp)
      refine ⟨c, cs ++ '\n' :: t.reverse, ?_, hc⟩
      show (t ++ '\n' :: joinL (t2 :: ts'')).reverse = _
      rw [List.reverse_append, List.reverse_cons, hrev]
      simp [List.append_assoc]

/-- The join of stripped, non-empty tasks is itself stripped. -/
theorem stripL_joinL {ts : List (List Char)}
    (hel : ∀ t ∈ ts, stripL t = t ∧ t ≠ []) : stripL (joinL ts) = joinL ts := by
  cases hts : ts with
  | nil => rfl
  | cons t ts' =>
    rw [hts] at hel
    obtain ⟨hst, hne⟩ := hel t (List.mem_cons_self _ _)
    have hdw : (joinL (t :: ts')).dropWhile pySpace = joinL (t :: ts') := by
      cases ht : t with
      | nil => exact absurd ht hne
      | cons c cs =>
        have hc : pySpace c = false := stripped_head hst ht
        cases ts' with
        | nil =>
          show (c :: cs).dropWhile pySpace = c :: cs
          exact List.dropWhile_cons_of_neg (by simp [hc])
        | cons t2 ts'' =>
          show ((c :: cs) ++ '\n' :: joinL (t2 :: ts'')).dropWhile pySpace = _
          rw [List.cons_append]
          exact List.dropWhile_cons_of_neg (by simp [hc])
    have hrd : List.rdropWhile pySpace (joinL (t :: ts')) = joinL (t :: ts') := by
      obtain ⟨c, cs, hrev, hc⟩ := joinL_reverse_head (t :: ts') hel (by simp)
      rw [List.rdropWhile, hrev, List.dropWhile_cons_of_neg (by simp [hc]), ← hrev,
        List.reverse_reverse]
    rw [stripL_eq_rdropWhile, hdw, hrd]

/-- Characters of a join come from a task or are the newline glue. -/
theorem mem_joinL {c : Char} : ∀ {ts : List (List Char)},
    c ∈ joinL ts → c = '\n' ∨ ∃ t ∈ ts, c ∈ t := by
  intro ts
  induction ts with
  | nil => intro h; simp [joinL] at h
  | cons t ts' ih =>
    intro h
    cases ts' with
    | nil => exact Or.inr ⟨t, List.mem_cons_self _ _, h⟩
    | cons t2 ts'' =>
      have h' : c ∈ t ++ '\n' :: joinL (t2 :: ts'') := h
      rw [List.mem_append] at h'
      cases h' with
      | inl hm => exact Or.inr ⟨t, List.mem_cons_self _ _, hm⟩
      | inr hm =>
        rw [List.mem_cons] at hm
        cases hm with
        | inl he => exact Or.inl he
        | inr hj =>
          cases ih hj with
          | inl he => exact Or.inl he
          | inr he =>
            obtain ⟨x, hx, hcx⟩ := he
            exact Or.inr ⟨x, List.mem_cons_of_mem _ hx, hcx⟩

/-- A character absent from every task, other than newline, is absent from
the join. -/
theorem joinL_contains_false {x : Char} {ts : List (List Char)} (hx : x ≠ '\n')
    (h : ∀ t ∈ ts, x ∉ t) : (joinL ts).contains x = false := by
  rw [Bool.eq_false_iff]
  intro hcon
  obtain ⟨y, hy, hbeq⟩ := List.contains_iff_exists_mem_beq.mp hcon
  have hxy : x = y := eq_of_beq hbeq
  subst hxy
  cases mem_joinL hy with
  | inl he => exact hx he
  | inr he =>
    obtain ⟨t, ht, hm⟩ := he
    exact h t ht hm

/-- Splitting a separator-free list yields the list itself. -/
theorem splitOnChar_nosep {sep : Char} : ∀ {u : List Char}, sep ∉ u →
    splitOnChar sep u = [u] := by
  intro u
  induction u with
  | nil => intro _; rfl
  | cons c rest ih =>
    intro h
    have hc : ¬ c = sep := fun hcon => h (hcon ▸ List.mem_cons_self _ _)
    have hr := ih (fun hm => h (List.mem_cons_of_mem _ hm))
    simp only [splitOnChar, if_neg hc, hr]

/-- Splitting past a separator-free block extends the first segment. -/
theorem splitOnChar_append_first {sep : Char} : ∀ {u : List Char} {v r : List Char}
    {rs : List (List Char)}, sep ∉ u → splitOnChar sep v = r :: rs →
    splitOnChar sep (u ++ v) = (u ++ r) :: rs := by
  intro u
  induction u with
  | nil =>
    intro v r rs _ hv
    simpa using hv
  | cons c u' ih =>
    intro v r rs hu hv
    have hc : ¬ c = sep := fun hcon => hu (hcon ▸ List.mem_cons_self _ _)
    have := ih (fun hm => hu (List.mem_cons_of_mem _ hm)) hv
    rw [List.cons_append]
    simp only [splitOnChar, if_neg hc, this]
    rfl

/-- Splitting the newline-join of newline-free tasks recovers the tasks. -/
theorem splitOnChar_joinL : ∀ (ts : List (List Char)), ts ≠ [] →
    (∀ t ∈ ts, '\n' ∉ t) → splitOnChar '\n' (joinL ts) = ts := by
  intro ts
  induction ts with
  | nil => intro h _; exact absurd rfl h
  | cons t ts' ih =>
    intro _ hn
    cases ts' with
    | nil => exact splitOnChar_nosep (hn t (List.mem_cons_self _ _))
    | cons t2 ts'' =>
      have hJ := ih (by simp) (fun x hx => hn x (List.mem_cons_of_mem _ hx))
      have hv : splitOnChar '\n' ('\n' :: joinL (t2 :: ts'')) =
          [] :: splitOnChar '\n' (joinL (t2 :: ts'')) := by
        simp [splitOnChar]
      show splitOnChar '\n' (t ++ '\n' :: joinL (t2 :: ts'')) = _
      rw [splitOnChar_append_first (hn t (List.mem_cons_self _ _)) (by rw [hv, hJ])]
      rw [List.append_nil]

/-- Normalising an already stripped, empty-free list leaves it unchanged. -/
theorem normalize_self {ts : List (List Char)}
    (hel : ∀ t ∈ ts, stripL t = t ∧ t ≠ []) : normalize ts = ts := by
  unfold normalize
  rw [List.map_congr_left (fun a ha => (hel a ha).1), List.map_id']
  rw [List.filter_eq_self.mpr]
  intro a ha
  have := (hel a ha).2
  simp [List.isEmpty_iff, this]

/-- Reparsing the newline-join of a stripped, reparse-safe task list via
the line-separated fallback reproduces the task list. -/
theorem parseTextL_joinL (ts : List (List Char))
    (hel : ∀ t ∈ ts, stripL t = t ∧ t ≠ [])
    (hsafe : reparseSafe ts) : parseTextL (joinL ts) = ts := by
  obtain ⟨hforall, hsingle⟩ := hsafe
  cases hts : ts with
  | nil => rfl
  | cons t0 ts0 =>
    rw [hts] at hel hforall hsingle
    have props : ∀ t ∈ t0 :: ts0, t ≠ [] ∧ '\n' ∉ t :=
      fun t ht => ⟨(hel t ht).2, (hforall t ht).1⟩
    have hstrip : stripL (joinL (t0 :: ts0)) = joinL (t0 :: ts0) := stripL_joinL hel
    have hnum : findAll matchNumbered (joinL (t0 :: ts0)) = [] :=
      findAllGo_join_nil (t0 :: ts0) props
        (fun t r ht hr => matchNumbered_none (hforall t ht).2.2.2.1 hr) _
    have hdot : findAll matchBulletDot (joinL (t0 :: ts0)) = [] :=
      findAllGo_join_nil (t0 :: ts0) props
        (fun t r ht _ => matchBulletDot_none (hforall t ht).2.2.2.2 (hel t ht).2) _
    have hdash : findAll matchBulletDash (joinL (t0 :: ts0)) = [] :=
      findAllGo_join_nil (t0 :: ts0) props
        (fun t r ht _ => matchBulletDash_none (hforall t ht).2.2.2.2 (hel t ht).2) _
    have hcb : findAll matchCheckbox (joinL (t0 :: ts0)) = [] :=
      findAllGo_join_nil (t0 :: ts0) props
        (fun t r ht _ => matchCheckbox_none (hforall t ht).2.2.2.2 (hel t ht).2) _
    have hcomma : (joinL (t0 :: ts0)).contains ',' = false :=
      joinL_contains_false (by decide) (fun t ht => (hforall t ht).2.1)
    have hsemi : (joinL (t0 :: ts0)).contains ';' = false :=
      joinL_contains_false (by decide) (fun t ht => (hforall t ht).2.2.1)
    have hlines : splitOnChar '\n' (joinL (t0 :: ts0)) = t0 :: ts0 :=
      splitOnChar_joinL (t0 :: ts0) (by simp) (fun t ht => (hforall t ht).1)
    unfold parseTextL restChain
    rw [hstrip]
    dsimp only
    rw [hnum, hdot, hdash, hcb, hcomma, hsemi, hlines, normalize_self hel]
    simp only [List.isEmpty_nil, Bool.not_true, Bool.false_eq_true, if_false]
    cases ts0 with
    | nil =>
      have hseps := hsingle rfl t0 (List.mem_cons_self _ _)
      show singleLineSplit t0 = [t0]
      unfold singleLineSplit
      rw [if_neg (by simp [hseps.1]), if_neg (by simp [hseps.2.1]),
        if_neg (by simp [hseps.2.2])]
    | cons t1 ts1 => rfl

/-- Claim C4 (amended): re-running parse_text on the newline-join of its
own output reproduces the output via the line-separated fallback, provided
the output is reparse-safe: no task contains a newline, comma or
semicolon, no task starts like a numbered or bulleted item, and a single
task contains no inline separator.  (The unrestricted claim is refuted by
C4_idem_counterexample.) -/
theorem C4_idem_amended (s : String)
    (hsafe : reparseSafe ((parse_text s).map String.data)) :
    parse_text (String.intercalate "\n" (parse_text s)) = parse_text s := by
  have hmapdata : (parse_text s).map String.data = parseTextL s.data := by
    unfold parse_text
    rw [List.map_map]
    rw [show String.data ∘ String.mk = id from rfl, List.map_id]
  rw [hmapdata] at hsafe
  have hel : ∀ t ∈ parseTextL s.data, stripL t = t ∧ t ≠ [] :=
    fun t ht => parseTextL_mem ht
  have hjoin : (String.intercalate "\n" (parse_text s)).data = joinL (parseTextL s.data) := by
    rw [intercalate_data, hmapdata]
  show (parseTextL (String.intercalate "\n" (parse_text s)).data).map String.mk = _
  rw [hjoin, parseTextL_joinL _ hel hsafe]
  rfl

/-- Witness for the amended claim C4 at the concrete input "Milk, Bread". -/
theorem C4_idem_amended_witness :
    parse_text (String.intercalate "\n" (parse_text "Milk, Bread")) =
      parse_text "Milk, Bread" :=
  C4_idem_amended "Milk, Bread" (by decide)

end BMS
